import Mathlib

/-!
Verification of the path-finding core of `pants/backend/project_info/paths.py`.

The source's `find_paths_breadth_first` is a generator that walks an
adjacency map breadth-first over a FIFO deque of partial paths, pruning
any partial path whose final (predecessor, current) edge has already been
expanded, and yielding a completed path whenever a successor equals the
destination.  We embed it as a step function on an explicit state.  A
partial path `cur_path` of the source is stored reversed, as a pair
`(c, r)` with `c` the last node of `cur_path` and `r` the remaining nodes
from second-to-last down to first, so the source's `cur_path[-1]` is `c`
and `cur_path[-2]` is `r.head?`.  The `expanded` field is a ghost log of
the edges whose successor loop ran; it feeds nothing back into the
computation of `queue`, `visited` or `found`.
-/

namespace PantsPaths

abbrev Node := Nat

abbrev Path := List Node

abbrev Edge := Option Node × Node

/-- An adjacency map, the embedding of the source's
`adjacency_lists : dict[Address, Targets]`: an association list from a
node to its ordered successor list. -/
abbrev AdjMap := List (Node × List Node)

/-- Embeds `adjacency_lists.get(target, [])`: the successor list of `n`,
or `[]` when `n` is not a key. -/
def adjGet (adj : AdjMap) (n : Node) : List Node :=
  match adj.find? (fun p => p.1 == n) with
  | some p => p.2
  | none => []

/-- The state of one run of the source's `while` loop.  `queue` embeds
`to_walk_paths` (each partial path stored reversed), `visited` embeds
`visited_edges`, `found` collects the yielded paths in yield order, and
`expanded` is a ghost log of expanded edges. -/
structure BfsState where
  queue : List (Node × List Node)
  visited : Finset Edge
  found : List Path
  expanded : List Edge

/-- The edge `(prev_target, target)` of a queued partial path: the
source's `(cur_path[-2] if len > 1 else None, cur_path[-1])`. -/
def qEdge (q : Node × List Node) : Edge := (q.2.head?, q.1)

/-- One iteration of the source's `while` loop (lines 76-101): pop the
front path; if its edge is visited, drop it; otherwise, for each
successor, yield the extension when the successor is the destination and
enqueue it otherwise, then mark the edge visited. -/
def bfsStep (adj : AdjMap) (dest : Node) (s : BfsState) : BfsState :=
  match s.queue with
  | [] => s
  | (c, r) :: rest =>
    if qEdge (c, r) ∈ s.visited then
      { s with queue := rest }
    else
      let succs := adjGet adj c
      { queue := rest ++ (succs.filter (fun x => x != dest)).map (fun x => (x, c :: r)),
        visited := insert (qEdge (c, r)) s.visited,
        found := s.found ++ (succs.filter (fun x => x == dest)).map
          (fun x => (x :: c :: r).reverse),
        expanded := s.expanded ++ [qEdge (c, r)] }

/-- Iterate `bfsStep` `n` times.  Once the queue is empty `bfsStep` is the
identity, so any sufficiently large `n` computes the full run. -/
def bfsRun (adj : AdjMap) (dest : Node) : Nat → BfsState → BfsState
  | 0, s => s
  | Nat.succ n, s => bfsRun adj dest n (bfsStep adj dest s)

/-- The initial state: queue seeded with `[from_target]`, everything else
empty. -/
def initState (root : Node) : BfsState :=
  { queue := [(root, [])], visited := ∅, found := [], expanded := [] }

/-- All successor-list entries of the adjacency map. -/
def allSuccs (adj : AdjMap) : List Node := (adj.map Prod.snd).flatten

/-- Every node a queued partial path can end in: the root or some
successor entry. -/
def nodesOf (adj : AdjMap) (root : Node) : Finset Node :=
  insert root (allSuccs adj).toFinset

/-- Every edge a run from `root` can ever examine. -/
def edgeUniverse (adj : AdjMap) (root : Node) : Finset Edge :=
  insert (none : Option Node) ((nodesOf adj root).image some) ×ˢ nodesOf adj root

/-- Fuel that provably empties the queue (theorem `bfsRun_fuelBound_queue_nil`):
the initial value of the potential
`queue.length + card (edgeUniverse \ visited) * (|allSuccs| + 1)`,
which strictly decreases at every productive step. -/
def fuelBound (adj : AdjMap) (root : Node) : Nat :=
  1 + (edgeUniverse adj root).card * ((allSuccs adj).length + 1)

/-- The embedding of the source's `find_paths_breadth_first`
(lines 54-101), fully materialized: the list of yielded paths in yield
order. -/
def find_paths_breadth_first (adj : AdjMap) (from_target to_target : Node) : List Path :=
  if from_target = to_target then [[from_target]]
  else (bfsRun adj to_target (fuelBound adj from_target) (initState from_target)).found

/-- The memoization state of the rule engine: which roots have had their
closure-plus-successors resolution actually performed, and how many such
resolutions ran. -/
structure EngineState where
  resolvedRoots : List Node
  resolutions : Nat

def initEngine : EngineState := { resolvedRoots := [], resolutions := 0 }

/-- Modelled from the spec: the adjacency resolution of
`get_paths_between_root_and_destination` (`transitive_targets` followed by
per-node `resolve_targets`, lines 131-152) runs through the rule engine,
which is outside this file's source and memoizes identical requests, so
the expensive resolution for a given root actually executes at most once
per session ("Expensive; called once per distinct root", spec section 2).
`provider` abstracts the oracle producing the adjacency map of a root;
the memo table records which roots have already been resolved. -/
def resolveAdjacencyMemo (provider : Node → AdjMap) (root : Node) (st : EngineState) :
    AdjMap × EngineState :=
  if root ∈ st.resolvedRoots then (provider root, st)
  else (provider root,
    { resolvedRoots := root :: st.resolvedRoots, resolutions := st.resolutions + 1 })

/-- The embedding of the rule `get_paths_between_root_and_destination`
(lines 127-162): resolve the adjacency map of `root` through the
memoizing engine, then run the breadth-first search for one destination. -/
def get_paths_between_root_and_destination (provider : Node → AdjMap) (root dest : Node)
    (st : EngineState) : List Path × EngineState :=
  let res := resolveAdjacencyMemo provider root st
  (find_paths_breadth_first res.1 root dest, res.2)

/-- The embedding of the rule `get_paths_between_root_and_destinations`
(lines 165-178): one run per destination, in input order, all against the
same engine. -/
def get_paths_between_root_and_destinations (provider : Node → AdjMap) (root : Node)
    (dests : List Node) (st : EngineState) : List (List Path) × EngineState :=
  match dests with
  | [] => ([], st)
  | d :: ds =>
    let one := get_paths_between_root_and_destination provider root d st
    let rest := get_paths_between_root_and_destinations provider root ds one.2
    (one.1 :: rest.1, rest.2)

/-- The per-root loop of the `paths` goal (lines 220-226): one
`get_paths_between_root_and_destinations` per root, in input order. -/
def runRoots (provider : Node → AdjMap) (roots dests : List Node) (st : EngineState) :
    List (List (List Path)) × EngineState :=
  match roots with
  | [] => ([], st)
  | r :: rs =>
    let one := get_paths_between_root_and_destinations provider r dests st
    let rest := runRoots provider rs dests one.2
    (one.1 :: rest.1, rest.2)

/-- The flattening loop of the `paths` goal (lines 228-230): iterate the
per-root results in order, within each the per-destination results in
order, extending `all_spec_paths` with each pair's path list. -/
def flattenSpecPaths (results : List (List (List Path))) : List Path :=
  (results.map List.flatten).flatten

/-- The embedding of the goal rule `paths` (lines 182-235): check the
`--from` and `--to` options before anything else, raising `ValueError`
when one is unset; otherwise resolve both specs, fan out over roots and
destinations, and return the flattened paths with exit code 0.
`resolve` abstracts the external spec-to-targets resolution. -/
def paths (resolve : String → List Node) (provider : Node → AdjMap)
    (path_from path_to : Option String) : Except String (List Path × Nat) :=
  match path_from with
  | none => Except.error ("Must set --from")
  | some f =>
    match path_to with
    | none => Except.error ("Must set --to")
    | some t =>
      let from_tgts := resolve f
      let to_tgts := resolve t
      let results := runRoots provider from_tgts to_tgts initEngine
      Except.ok (flattenSpecPaths results.1, 0)

section RunLemmas

variable (adj : AdjMap) (dest : Node)

/-- Any property preserved by one step is preserved by any run. -/
theorem bfsRun_pres (P : BfsState → Prop)
    (hstep : ∀ s, P s → P (bfsStep adj dest s)) :
    ∀ n s, P s → P (bfsRun adj dest n s)
  | 0, _, h => h
  | Nat.succ n, s, h => bfsRun_pres P hstep n _ (hstep s h)

/-- A state with an empty queue is a fixpoint of `bfsStep`. -/
theorem bfsStep_of_queue_nil (s : BfsState) (h : s.queue = []) :
    bfsStep adj dest s = s := by
  unfold bfsStep
  rw [h]

/-- A state with an empty queue is a fixpoint of `bfsRun`. -/
theorem bfsRun_of_queue_nil : ∀ (n : Nat) (s : BfsState), s.queue = [] →
    bfsRun adj dest n s = s
  | 0, _, _ => rfl
  | Nat.succ n, s, h => by
    show bfsRun adj dest n (bfsStep adj dest s) = s
    rw [bfsStep_of_queue_nil adj dest s h, bfsRun_of_queue_nil n s h]

end RunLemmas

section Termination

/-- Every successor delivered by `adjGet` is an entry of some successor
list of the map. -/
theorem adjGet_subset_allSuccs (adj : AdjMap) (c x : Node) (hx : x ∈ adjGet adj c) :
    x ∈ allSuccs adj := by
  unfold adjGet at hx
  cases hfind : adj.find? (fun p => p.1 == c) with
  | none => rw [hfind] at hx; simp at hx
  | some p =>
    rw [hfind] at hx
    have hp : p ∈ adj := List.mem_of_find?_eq_some hfind
    unfold allSuccs
    rw [List.mem_flatten]
    exact ⟨p.2, List.mem_map_of_mem _ hp, hx⟩

theorem length_le_length_flatten {α : Type} (L : List (List α)) (l : List α)
    (hl : l ∈ L) : l.length ≤ L.flatten.length := by
  induction L with
  | nil => simp at hl
  | cons a t ih =>
    rcases List.mem_cons.mp hl with h | h
    · subst h; simp
    · have := ih h
      simp only [List.flatten_cons, List.length_append]
      omega

/-- A successor list is never longer than the concatenation of all of
them. -/
theorem adjGet_length_le (adj : AdjMap) (c : Node) :
    (adjGet adj c).length ≤ (allSuccs adj).length := by
  unfold adjGet
  cases hfind : adj.find? (fun p => p.1 == c) with
  | none => simp
  | some p =>
    have hp : p ∈ adj := List.mem_of_find?_eq_some hfind
    exact length_le_length_flatten _ _ (List.mem_map_of_mem _ hp)

/-- The invariant feeding the termination argument: all visited edges and
all frontier edges lie in the finite edge universe. -/
def TermInv (adj : AdjMap) (root : Node) (s : BfsState) : Prop :=
  s.visited ⊆ edgeUniverse adj root ∧ ∀ q ∈ s.queue, qEdge q ∈ edgeUniverse adj root

/-- The potential: queue length plus a weighted count of the edges still
expandable.  One step of `bfsStep` on a nonempty queue strictly decreases
it. -/
def phi (adj : AdjMap) (root : Node) (s : BfsState) : Nat :=
  s.queue.length + (edgeUniverse adj root \ s.visited).card * ((allSuccs adj).length + 1)

theorem qEdge_new_mem (adj : AdjMap) (root c x : Node) (r : List Node)
    (hc : qEdge (c, r) ∈ edgeUniverse adj root) (hx : x ∈ adjGet adj c) :
    qEdge (x, c :: r) ∈ edgeUniverse adj root := by
  have hcn : c ∈ nodesOf adj root := (Finset.mem_product.mp hc).2
  have hxn : x ∈ nodesOf adj root := by
    unfold nodesOf
    exact Finset.mem_insert_of_mem (List.mem_toFinset.mpr (adjGet_subset_allSuccs adj c x hx))
  refine Finset.mem_product.mpr ⟨?_, hxn⟩
  exact Finset.mem_insert_of_mem (Finset.mem_image_of_mem some hcn)

theorem termInv_step (adj : AdjMap) (root dest : Node) (s : BfsState)
    (h : TermInv adj root s) : TermInv adj root (bfsStep adj dest s) := by
  obtain ⟨hv, hq⟩ := h
  unfold bfsStep
  cases hqs : s.queue with
  | nil => exact ⟨hv, hq⟩
  | cons q0 rest =>
    obtain ⟨c, r⟩ := q0
    have hrest : ∀ q ∈ rest, qEdge q ∈ edgeUniverse adj root := by
      intro q hmem
      exact hq q (by rw [hqs]; exact List.mem_cons_of_mem _ hmem)
    have hhead : qEdge (c, r) ∈ edgeUniverse adj root :=
      hq (c, r) (by rw [hqs]; exact List.mem_cons_self _ _)
    by_cases hvis : qEdge (c, r) ∈ s.visited
    · simp only [hvis, if_pos]
      exact ⟨hv, hrest⟩
    · simp only [hvis, if_neg, not_false_iff]
      constructor
      · exact Finset.insert_subset hhead hv
      · intro q hmem
        rcases List.mem_append.mp hmem with hmem | hmem
        · exact hrest q hmem
        · obtain ⟨x, hxmem, hxeq⟩ := List.mem_map.mp hmem
          subst hxeq
          exact qEdge_new_mem adj root c x r hhead (List.mem_of_mem_filter hxmem)

theorem phi_step_lt (adj : AdjMap) (root dest : Node) (s : BfsState)
    (h : TermInv adj root s) (hne : s.queue ≠ []) :
    phi adj root (bfsStep adj dest s) < phi adj root s := by
  obtain ⟨hv, hq⟩ := h
  unfold bfsStep phi
  cases hqs : s.queue with
  | nil => exact absurd hqs hne
  | cons q0 rest =>
    obtain ⟨c, r⟩ := q0
    have hhead : qEdge (c, r) ∈ edgeUniverse adj root :=
      hq (c, r) (by rw [hqs]; exact List.mem_cons_self _ _)
    by_cases hvis : qEdge (c, r) ∈ s.visited
    · simp only [hvis, if_pos]
      simp only [List.length_cons]
      omega
    · simp only [hvis, if_neg, not_false_iff]
      have hcard : (edgeUniverse adj root \ insert (qEdge (c, r)) s.visited).card <
          (edgeUniverse adj root \ s.visited).card := by
        apply Finset.card_lt_card
        constructor
        · intro e he
          rw [Finset.mem_sdiff] at he ⊢
          exact ⟨he.1, fun hc => he.2 (Finset.mem_insert_of_mem hc)⟩
        · intro hsub
          have : qEdge (c, r) ∈ edgeUniverse adj root \ s.visited :=
            Finset.mem_sdiff.mpr ⟨hhead, hvis⟩
          have := hsub this
          rw [Finset.mem_sdiff] at this
          exact this.2 (Finset.mem_insert_self _ _)
      have hlen : ((adjGet adj c).filter (fun x => x != dest)).length ≤
          (allSuccs adj).length :=
        le_trans (List.length_filter_le _ _) (adjGet_length_le adj c)
      simp only [List.length_append, List.length_map, List.length_cons]
      set T := (allSuccs adj).length with hT
      set a := (edgeUniverse adj root \ s.visited).card with ha
      set b := (edgeUniverse adj root \ insert (qEdge (c, r)) s.visited).card with hb
      have hmul : (b + 1) * (T + 1) ≤ a * (T + 1) := Nat.mul_le_mul_right _ hcard
      have hexp : (b + 1) * (T + 1) = b * (T + 1) + (T + 1) := by ring
      omega

/-- Sufficient fuel empties the queue. -/
theorem bfsRun_queue_nil_of_phi_le (adj : AdjMap) (root dest : Node) :
    ∀ (n : Nat) (s : BfsState), TermInv adj root s → phi adj root s ≤ n →
    (bfsRun adj dest n s).queue = [] := by
  intro n
  induction n with
  | zero =>
    intro s _ hphi
    have : s.queue.length = 0 := by
      unfold phi at hphi
      omega
    exact List.length_eq_zero.mp this
  | succ n ih =>
    intro s hinv hphi
    by_cases hque : s.queue = []
    · rw [show bfsRun adj dest (n + 1) s = bfsRun adj dest n (bfsStep adj dest s) from rfl,
        bfsStep_of_queue_nil adj dest s hque, bfsRun_of_queue_nil adj dest n s hque]
      exact hque
    · have hlt := phi_step_lt adj root dest s hinv hque
      exact ih (bfsStep adj dest s) (termInv_step adj root dest s hinv) (by omega)

theorem termInv_init (adj : AdjMap) (root : Node) : TermInv adj root (initState root) := by
  constructor
  · intro e he
    simp [initState] at he
  · intro q hq
    simp only [initState, List.mem_singleton] at hq
    subst hq
    refine Finset.mem_product.mpr ⟨Finset.mem_insert_self _ _, ?_⟩
    exact Finset.mem_insert_self _ _

/-- The run performed by `find_paths_breadth_first` explores the graph
exhaustively: its fuel empties the queue. -/
theorem bfsRun_fuelBound_queue_nil (adj : AdjMap) (root dest : Node) :
    (bfsRun adj dest (fuelBound adj root) (initState root)).queue = [] := by
  apply bfsRun_queue_nil_of_phi_le adj root dest _ _ (termInv_init adj root)
  unfold phi fuelBound initState
  simp

end Termination

set_option maxRecDepth 100000

/-- C8: for every adjacency map and node `X`, the search for `X` to `X`
yields exactly the single path `[X]`; the result does not depend on the
map, reflecting that the source returns before any graph exploration
(lines 66-68). -/
theorem self_path_only (adj : AdjMap) (x : Node) :
    find_paths_breadth_first adj x x = [[x]] := by
  simp [find_paths_breadth_first]

/-- C7: on the diamond graph `A ↦ [B, C]`, `B ↦ [D]`, `C ↦ [D]` the
search from `A` to `D` yields exactly `[A, B, D]` then `[A, C, D]`. -/
theorem diamond_example :
    find_paths_breadth_first [(0, [1, 2]), (1, [3]), (2, [3])] 0 3 =
      [[0, 1, 3], [0, 2, 3]] := by decide

/-- C3, counterexample: on the graph `A→B, B→A, A→C` the search from `A`
to `C` does not yield only `[A, C]`: it also yields the non-simple path
`[A, B, A, C]` through the cycle. -/
theorem cycle_example_not_single_path :
    find_paths_breadth_first [(0, [1, 2]), (1, [0])] 0 2 ≠ [[0, 2]] := by decide

/-- C3, amended: every run terminates — the fuel `fuelBound` provably
empties the queue, so the yielded sequence is the finite, complete one —
and on the cyclic graph `A→B, B→A, A→C` the search from `A` to `C`
terminates yielding exactly `[A, C]` followed by `[A, B, A, C]`. -/
theorem bfs_terminates_and_cycle_example :
    (∀ (adj : AdjMap) (root dest : Node),
      (bfsRun adj dest (fuelBound adj root) (initState root)).queue = [])
    ∧ find_paths_breadth_first [(0, [1, 2]), (1, [0])] 0 2 = [[0, 2], [0, 1, 0, 2]] :=
  ⟨fun adj root dest => bfsRun_fuelBound_queue_nil adj root dest, by decide⟩



section Ordering

/-- The length of the partial path a queue entry stands for: the source's
`len(cur_path)`. -/
def plen (q : Node × List Node) : Nat := q.2.length + 1

theorem sorted_of_all_eq {l : List Nat} (v : Nat) (h : ∀ x ∈ l, x = v) :
    l.Sorted (fun a b => a ≤ b) := by
  induction l with
  | nil => simp
  | cons a t ih =>
    rw [List.sorted_cons]
    refine ⟨fun b hb => ?_, ih fun x hx => h x (List.mem_cons_of_mem _ hx)⟩
    rw [h a (List.mem_cons_self _ _), h b (List.mem_cons_of_mem _ hb)]

theorem sorted_append_le {l1 l2 : List Nat} :
    (l1 ++ l2).Sorted (fun a b => a ≤ b) ↔
      l1.Sorted (fun a b => a ≤ b) ∧ l2.Sorted (fun a b => a ≤ b) ∧
      ∀ a ∈ l1, ∀ b ∈ l2, a ≤ b :=
  List.pairwise_append

/-- The breadth-first ordering invariant: found-path lengths are sorted,
queued partial-path lengths are sorted, every queued length and every
found length is at most one more than the front length. -/
def OrdInv (s : BfsState) : Prop :=
  (s.found.map List.length).Sorted (fun a b => a ≤ b) ∧
  (s.queue.map plen).Sorted (fun a b => a ≤ b) ∧
  ∀ q0 ∈ s.queue.head?, (∀ p ∈ s.queue, plen p ≤ plen q0 + 1) ∧
    ∀ f ∈ s.found, f.length ≤ plen q0 + 1

theorem ordInv_step (adj : AdjMap) (dest : Node) (s : BfsState)
    (h : OrdInv s) : OrdInv (bfsStep adj dest s) := by
  obtain ⟨hsf, hsq, hbd⟩ := h
  unfold bfsStep
  cases hqs : s.queue with
  | nil => exact ⟨hsf, hsq, hbd⟩
  | cons q0 rest =>
    obtain ⟨c, r⟩ := q0
    rw [hqs] at hsq hbd
    obtain ⟨hq, hf⟩ := hbd (c, r) rfl
    rw [List.map_cons, List.sorted_cons] at hsq
    obtain ⟨hqle, hsq'⟩ := hsq
    by_cases hvis : qEdge (c, r) ∈ s.visited
    · simp only [hvis, if_pos]
      refine ⟨hsf, hsq', ?_⟩
      intro q1 hq1
      have hq1m : q1 ∈ rest := List.mem_of_mem_head? hq1
      have hle : plen (c, r) ≤ plen q1 := hqle _ (List.mem_map_of_mem plen hq1m)
      constructor
      · intro p hp
        have := hq p (List.mem_cons_of_mem _ hp)
        omega
      · intro f hfm
        have := hf f hfm
        omega
    · simp only [hvis, if_neg, not_false_iff]
      set L := plen (c, r) with hL
      have hnew : ∀ p ∈ (List.filter (fun x => x != dest) (adjGet adj c)).map
          (fun x => (x, c :: r)), plen p = L + 1 := by
        intro p hp
        obtain ⟨x, _, hxe⟩ := List.mem_map.mp hp
        subst hxe
        simp [plen, hL]
      have hyld : ∀ f ∈ (List.filter (fun x => x == dest) (adjGet adj c)).map
          (fun x => (x :: c :: r).reverse), f.length = L + 1 := by
        intro f hfm
        obtain ⟨x, _, hxe⟩ := List.mem_map.mp hfm
        subst hxe
        simp [plen, hL]
      refine ⟨?_, ?_, ?_⟩
      · rw [List.map_append, sorted_append_le]
        refine ⟨hsf, ?_, ?_⟩
        · apply sorted_of_all_eq (L + 1)
          intro x hx
          obtain ⟨f, hfm, hfe⟩ := List.mem_map.mp hx
          rw [← hfe]
          exact hyld f hfm
        · intro x hx y hy
          obtain ⟨f, hfm, hfe⟩ := List.mem_map.mp hx
          obtain ⟨g, hgm, hge⟩ := List.mem_map.mp hy
          rw [← hfe, ← hge, hyld g hgm]
          have := hf f hfm
          omega
      · rw [List.map_append, sorted_append_le]
        refine ⟨hsq', ?_, ?_⟩
        · apply sorted_of_all_eq (L + 1)
          intro x hx
          obtain ⟨p, hpm, hpe⟩ := List.mem_map.mp hx
          rw [← hpe]
          exact hnew p hpm
        · intro x hx y hy
          obtain ⟨p, hpm, hpe⟩ := List.mem_map.mp hx
          obtain ⟨p', hpm', hpe'⟩ := List.mem_map.mp hy
          rw [← hpe, ← hpe', hnew p' hpm']
          have : plen p ≤ L + 1 := hq p (List.mem_cons_of_mem _ hpm)
          omega
      · intro q1 hq1
        have hq1m : q1 ∈ rest ++ (List.filter (fun x => x != dest) (adjGet adj c)).map
            (fun x => (x, c :: r)) := List.mem_of_mem_head? hq1
        have hLq1 : L ≤ plen q1 := by
          rcases List.mem_append.mp hq1m with hm | hm
          · exact hqle _ (List.mem_map_of_mem plen hm)
          · rw [hnew q1 hm]; omega
        constructor
        · intro p hp
          rcases List.mem_append.mp hp with hm | hm
          · have := hq p (List.mem_cons_of_mem _ hm)
            omega
          · rw [hnew p hm]; omega
        · intro f hfm
          rcases List.mem_append.mp hfm with hm | hm
          · have := hf f hm
            omega
          · rw [hyld f hm]; omega

theorem ordInv_init (root : Node) : OrdInv (initState root) := by
  refine ⟨by simp [initState], by simp [initState], ?_⟩
  intro q0 hq0
  simp only [initState, List.head?_cons, Option.mem_def, Option.some_inj] at hq0
  subst hq0
  constructor
  · intro p hp
    simp only [initState, List.mem_singleton] at hp
    subst hp
    omega
  · intro f hfm
    simp [initState] at hfm

/-- C2: the sequence yielded by `find_paths_breadth_first` is in
non-decreasing length order.  (The output is a Lean function of the
adjacency map, root and destination, so determinism of the sequence —
given the map's successor order and the FIFO dequeue order — is inherent
in the embedding.) -/
theorem yielded_lengths_sorted (adj : AdjMap) (root dest : Node) :
    ((find_paths_breadth_first adj root dest).map List.length).Sorted
      (fun a b => a ≤ b) := by
  unfold find_paths_breadth_first
  by_cases h : root = dest
  · simp [h]
  · simp only [h, if_neg, not_false_iff]
    have := bfsRun_pres adj dest OrdInv (ordInv_step adj dest)
      (fuelBound adj root) (initState root) (ordInv_init root)
    exact this.1

end Ordering

section EdgeExpansion

/-- The ghost log of expanded edges is duplicate-free and coincides with
the visited set. -/
def ExpInv (s : BfsState) : Prop :=
  s.expanded.Nodup ∧ ∀ e : Edge, e ∈ s.expanded ↔ e ∈ s.visited

theorem expInv_step (adj : AdjMap) (dest : Node) (s : BfsState)
    (h : ExpInv s) : ExpInv (bfsStep adj dest s) := by
  obtain ⟨hnd, hiff⟩ := h
  unfold bfsStep
  cases hqs : s.queue with
  | nil => exact ⟨hnd, hiff⟩
  | cons q0 rest =>
    obtain ⟨c, r⟩ := q0
    by_cases hvis : qEdge (c, r) ∈ s.visited
    · simp only [hvis, if_pos]
      exact ⟨hnd, hiff⟩
    · simp only [hvis, if_neg, not_false_iff]
      constructor
      · rw [List.nodup_append]
        refine ⟨hnd, List.nodup_singleton _, ?_⟩
        intro a ha hb
        rw [List.mem_singleton] at hb
        subst hb
        exact hvis ((hiff _).mp ha)
      · intro e
        rw [List.mem_append, List.mem_singleton, Finset.mem_insert, hiff e]
        tauto

theorem expInv_init (root : Node) : ExpInv (initState root) := by
  refine ⟨by simp [initState], ?_⟩
  intro e
  simp [initState]

/-- C4: within one run, no edge's successor loop executes twice: the
ghost log of expanded edges, over any number of steps from the initial
state, has no duplicate. -/
theorem no_edge_expanded_twice (adj : AdjMap) (root dest : Node) (n : Nat) :
    (bfsRun adj dest n (initState root)).expanded.Nodup :=
  (bfsRun_pres adj dest ExpInv (expInv_step adj dest) n _ (expInv_init root)).1

end EdgeExpansion

section Walks

/-- The consecutive ordered pairs of a path, in path order. -/
def fedges : List Node → List (Node × Node)
  | a :: b :: t => (a, b) :: fedges (b :: t)
  | _ => []

/-- The consecutive pairs of a reversed path, each pair returned in
forward (predecessor, successor) orientation. -/
def redges : List Node → List (Node × Node)
  | a :: b :: t => (b, a) :: redges (b :: t)
  | _ => []

theorem fedges_eq_zip : ∀ l : List Node, fedges l = l.zip l.tail
  | [] => rfl
  | [_] => rfl
  | a :: b :: t => by
    show (a, b) :: fedges (b :: t) = (a, b) :: (b :: t).zip t
    rw [fedges_eq_zip (b :: t)]
    rfl

theorem fedges_append_singleton : ∀ (m : List Node) (a : Node),
    fedges (m ++ [a]) = fedges m ++ ((m.getLast?).map (fun b => (b, a))).toList
  | [], _ => rfl
  | [_], _ => rfl
  | x :: y :: t, a => by
    show (x, y) :: fedges ((y :: t) ++ [a]) = _
    rw [fedges_append_singleton (y :: t) a]
    simp [fedges, List.getLast?_cons_cons]

theorem fedges_reverse : ∀ l : List Node, fedges l.reverse = (redges l).reverse
  | [] => rfl
  | [_] => rfl
  | a :: b :: t => by
    rw [List.reverse_cons, fedges_append_singleton, fedges_reverse (b :: t)]
    show _ = ((b, a) :: redges (b :: t)).reverse
    simp [List.getLast?_reverse]

theorem redges_mem_snd : ∀ (l : List Node) (e : Node × Node), e ∈ redges l → e.2 ∈ l
  | a :: b :: t, e, he => by
    rcases List.mem_cons.mp he with h | h
    · subst h
      exact List.mem_cons_self _ _
    · exact List.mem_cons_of_mem _ (redges_mem_snd (b :: t) e h)

/-- The per-entry invariant of the queue: the partial path starts at the
root, follows adjacency, avoids the destination, and all of its edges
except the final one have been expanded, pairwise distinctly. -/
def QElemInv (adj : AdjMap) (root dest : Node) (visited : Finset Edge)
    (q : Node × List Node) : Prop :=
  (q.1 :: q.2).getLast? = some root ∧
  List.Chain' (fun a b => a ∈ adjGet adj b) (q.1 :: q.2) ∧
  dest ∉ q.1 :: q.2 ∧
  (∀ e ∈ redges q.2, ((some e.1, e.2) : Edge) ∈ visited) ∧
  (redges q.2).Nodup

/-- The invariant of a yielded path: a genuine walk from `root` to
`dest`, at least two nodes long, with `dest` only at the end and no
repeated edge. -/
def FoundInv (adj : AdjMap) (root dest : Node) (p : Path) : Prop :=
  p.head? = some root ∧ p.getLast? = some dest ∧
  List.Chain' (fun a b => b ∈ adjGet adj a) p ∧ 2 ≤ p.length ∧
  dest ∉ p.dropLast ∧ (fedges p).Nodup

def WalkInv (adj : AdjMap) (root dest : Node) (s : BfsState) : Prop :=
  (∀ q ∈ s.queue, QElemInv adj root dest s.visited q) ∧
  ∀ p ∈ s.found, FoundInv adj root dest p

theorem qElemInv_mono (adj : AdjMap) (root dest : Node) (v v' : Finset Edge)
    (hv : v ⊆ v') (q : Node × List Node) (h : QElemInv adj root dest v q) :
    QElemInv adj root dest v' q :=
  ⟨h.1, h.2.1, h.2.2.1, fun e he => hv (h.2.2.2.1 e he), h.2.2.2.2⟩

theorem walkInv_step (adj : AdjMap) (root dest : Node) (s : BfsState)
    (h : WalkInv adj root dest s) : WalkInv adj root dest (bfsStep adj dest s) := by
  obtain ⟨hQ, hF⟩ := h
  unfold bfsStep
  cases hqs : s.queue with
  | nil => exact ⟨hQ, hF⟩
  | cons q0 rest =>
    obtain ⟨c, r⟩ := q0
    rw [hqs] at hQ
    obtain ⟨hlast, hchain, hdest, hvisE, hnodE⟩ := hQ (c, r) (List.mem_cons_self _ _)
    by_cases hvis : qEdge (c, r) ∈ s.visited
    · simp only [hvis, if_pos]
      exact ⟨fun q hqm => hQ q (List.mem_cons_of_mem _ hqm), hF⟩
    · simp only [hvis, if_neg, not_false_iff]
      have factA : (redges (c :: r)).Nodup := by
        cases r with
        | nil => exact List.nodup_nil
        | cons p t =>
          show ((p, c) :: redges (p :: t)).Nodup
          refine List.nodup_cons.mpr ⟨?_, hnodE⟩
          intro hmem
          exact hvis (hvisE (p, c) hmem)
      have factB : ∀ e ∈ redges (c :: r),
          ((some e.1, e.2) : Edge) ∈ insert (qEdge (c, r)) s.visited := by
        cases r with
        | nil => intro e he; simp [redges] at he
        | cons p t =>
          intro e he
          rcases List.mem_cons.mp he with he | he
          · subst he
            exact Finset.mem_insert_self _ _
          · exact Finset.mem_insert_of_mem (hvisE e he)
      constructor
      · intro q hqm
        rcases List.mem_append.mp hqm with hm | hm
        · exact qElemInv_mono adj root dest s.visited _ (Finset.subset_insert _ _) q
            (hQ q (List.mem_cons_of_mem _ hm))
        · obtain ⟨x, hxf, hxe⟩ := List.mem_map.mp hm
          have hxs : x ∈ adjGet adj c := List.mem_of_mem_filter hxf
          have hxne : x ≠ dest := by
            have := List.of_mem_filter hxf
            simpa using this
          subst hxe
          refine ⟨?_, ?_, ?_, factB, factA⟩
          · rw [List.getLast?_cons_cons]
            exact hlast
          · exact List.chain'_cons.mpr ⟨hxs, hchain⟩
          · intro hmem
            rcases List.mem_cons.mp hmem with hc | hc
            · exact hxne hc.symm
            · exact hdest hc
      · intro p hpm
        rcases List.mem_append.mp hpm with hm | hm
        · exact hF p hm
        · obtain ⟨x, hxf, hxe⟩ := List.mem_map.mp hm
          have hxs : x ∈ adjGet adj c := List.mem_of_mem_filter hxf
          have hxeq : x = dest := by
            have := List.of_mem_filter hxf
            simpa using this
          subst hxeq
          subst hxe
          refine ⟨?_, ?_, ?_, ?_, ?_, ?_⟩
          · rw [List.head?_reverse, List.getLast?_cons_cons]
            exact hlast
          · rw [List.getLast?_reverse]
            rfl
          · rw [List.chain'_reverse]
            exact List.chain'_cons.mpr ⟨hxs, hchain⟩
          · simp
          · rw [List.reverse_cons, List.dropLast_concat, List.mem_reverse]
            exact hdest
          · rw [fedges_reverse, List.nodup_reverse]
            show ((c, x) :: redges (c :: r)).Nodup
            refine List.nodup_cons.mpr ⟨?_, factA⟩
            intro hmem
            exact hdest (redges_mem_snd _ _ hmem)

theorem walkInv_init (adj : AdjMap) (root dest : Node) (h : root ≠ dest) :
    WalkInv adj root dest (initState root) := by
  constructor
  · intro q hqm
    simp only [initState, List.mem_singleton] at hqm
    subst hqm
    refine ⟨rfl, List.chain'_singleton _, ?_, ?_, List.nodup_nil⟩
    · intro hmem
      rw [List.mem_singleton] at hmem
      exact h hmem.symm
    · intro e he
      simp [redges] at he
  · intro p hpm
    simp [initState] at hpm

/-- C6: with `root ≠ dest`, every yielded path is a genuine walk of the
map: it starts at the root, ends at the destination, each consecutive
pair is an adjacency-map edge, it has at least two nodes, and the
destination appears only in final position. -/
theorem yielded_paths_are_walks (adj : AdjMap) (root dest : Node) (h : root ≠ dest) :
    ∀ p ∈ find_paths_breadth_first adj root dest,
      p.head? = some root ∧ p.getLast? = some dest ∧
      List.Chain' (fun a b => b ∈ adjGet adj a) p ∧ 2 ≤ p.length ∧
      dest ∉ p.dropLast := by
  intro p hp
  unfold find_paths_breadth_first at hp
  rw [if_neg h] at hp
  have := (bfsRun_pres adj dest (WalkInv adj root dest) (walkInv_step adj root dest)
    (fuelBound adj root) (initState root) (walkInv_init adj root dest h)).2 p hp
  exact ⟨this.1, this.2.1, this.2.2.1, this.2.2.2.1, this.2.2.2.2.1⟩

/-- Witness for `yielded_paths_are_walks` at the diamond graph and its
first yielded path. -/
theorem yielded_paths_are_walks_witness :
    ([0, 1, 3] : Path).head? = some 0 ∧ ([0, 1, 3] : Path).getLast? = some 3 ∧
      List.Chain' (fun a b => b ∈ adjGet [(0, [1, 2]), (1, [3]), (2, [3])] a) [0, 1, 3] ∧
      2 ≤ ([0, 1, 3] : Path).length ∧ (3 : Node) ∉ ([0, 1, 3] : Path).dropLast :=
  yielded_paths_are_walks [(0, [1, 2]), (1, [3]), (2, [3])] 0 3 (by decide)
    [0, 1, 3] (by decide)

/-- C5: no yielded path repeats an edge — its list of consecutive ordered
pairs is duplicate-free — while a yielded path can repeat a node: on the
cyclic graph `A→B, B→A, A→C` the yielded path `[A, B, A, C]` visits `A`
twice. -/
theorem yielded_paths_no_repeated_edge :
    (∀ (adj : AdjMap) (root dest : Node), ∀ p ∈ find_paths_breadth_first adj root dest,
      (p.zip p.tail).Nodup)
    ∧ ∃ p ∈ find_paths_breadth_first [(0, [1, 2]), (1, [0])] 0 2, ¬ p.Nodup := by
  constructor
  · intro adj root dest p hp
    rw [← fedges_eq_zip]
    by_cases h : root = dest
    · unfold find_paths_breadth_first at hp
      rw [if_pos h, List.mem_singleton] at hp
      subst hp
      exact List.nodup_nil
    · unfold find_paths_breadth_first at hp
      rw [if_neg h] at hp
      exact ((bfsRun_pres adj dest (WalkInv adj root dest) (walkInv_step adj root dest)
        (fuelBound adj root) (initState root) (walkInv_init adj root dest h)).2
        p hp).2.2.2.2.2
  · exact ⟨[0, 1, 0, 2], by decide, by decide⟩

/-- Witness for the universally quantified half of
`yielded_paths_no_repeated_edge`, at the cycle graph's second yielded
path. -/
theorem yielded_paths_no_repeated_edge_witness :
    (([0, 1, 0, 2] : Path).zip ([0, 1, 0, 2] : Path).tail).Nodup :=
  yielded_paths_no_repeated_edge.1 [(0, [1, 2]), (1, [0])] 0 2 [0, 1, 0, 2] (by decide)

end Walks

section FanOut

/-- The memoizing resolution always hands back the provider's map for the
root, whatever the engine state. -/
theorem resolveAdjacencyMemo_fst (provider : Node → AdjMap) (root : Node)
    (st : EngineState) : (resolveAdjacencyMemo provider root st).1 = provider root := by
  unfold resolveAdjacencyMemo
  split <;> rfl

/-- Once the root is in the memo table, fanning out over any destination
list performs no further resolution and leaves the engine unchanged. -/
theorem get_dests_cached (provider : Node → AdjMap) (root : Node) (ds : List Node)
    (st : EngineState) (hmem : root ∈ st.resolvedRoots) :
    get_paths_between_root_and_destinations provider root ds st =
      (ds.map (fun d => find_paths_breadth_first (provider root) root d), st) := by
  induction ds with
  | nil => rfl
  | cons d ds ih =>
    simp only [get_paths_between_root_and_destinations,
      get_paths_between_root_and_destination, resolveAdjacencyMemo, if_pos hmem, ih,
      List.map_cons]

/-- The result component of the per-root fan-out, for any engine state:
one full search per destination, in order, all over the provider's map
for the root. -/
theorem get_dests_fst (provider : Node → AdjMap) (root : Node) (ds : List Node) :
    ∀ st : EngineState, (get_paths_between_root_and_destinations provider root ds st).1 =
      ds.map (fun d => find_paths_breadth_first (provider root) root d) := by
  induction ds with
  | nil => intro st; rfl
  | cons d ds ih =>
    intro st
    simp only [get_paths_between_root_and_destinations, List.map_cons]
    rw [ih]
    simp only [get_paths_between_root_and_destination, resolveAdjacencyMemo_fst]

/-- C1: for a root with a nonempty destination list, starting from a
fresh engine, the closure/successors resolution runs exactly once — the
resolution count is 1 however many destinations there are — and every
per-destination search consumes the same adjacency map
`provider root`. -/
theorem adjacency_resolved_once (provider : Node → AdjMap) (root : Node)
    (dests : List Node) (h : dests ≠ []) :
    (get_paths_between_root_and_destinations provider root dests initEngine).2.resolutions = 1
    ∧ (get_paths_between_root_and_destinations provider root dests initEngine).1 =
      dests.map (fun d => find_paths_breadth_first (provider root) root d) := by
  cases dests with
  | nil => exact absurd rfl h
  | cons d ds =>
    have hfirst : get_paths_between_root_and_destination provider root d initEngine =
        (find_paths_breadth_first (provider root) root d,
          { resolvedRoots := [root], resolutions := 1 }) := by
      simp [get_paths_between_root_and_destination, resolveAdjacencyMemo, initEngine]
    have hcached := get_dests_cached provider root ds
      { resolvedRoots := [root], resolutions := 1 } (List.mem_singleton.mpr rfl)
    constructor
    · simp only [get_paths_between_root_and_destinations, hfirst, hcached]
    · simp only [get_paths_between_root_and_destinations, hfirst, hcached, List.map_cons]

/-- Witness for `adjacency_resolved_once` with two destinations. -/
theorem adjacency_resolved_once_witness :
    (get_paths_between_root_and_destinations (fun _ => [(0, [1])]) 0 [1, 2]
      initEngine).2.resolutions = 1
    ∧ (get_paths_between_root_and_destinations (fun _ => [(0, [1])]) 0 [1, 2]
        initEngine).1 =
      [1, 2].map (fun d => find_paths_breadth_first [(0, [1])] 0 d) :=
  adjacency_resolved_once (fun _ => [(0, [1])]) 0 [1, 2] (by decide)

/-- The result component of the per-root loop: per root in order, per
destination in order. -/
theorem runRoots_fst (provider : Node → AdjMap) (roots dests : List Node) :
    ∀ st : EngineState, (runRoots provider roots dests st).1 =
      roots.map (fun r => dests.map (fun d => find_paths_breadth_first (provider r) r d)) := by
  induction roots with
  | nil => intro st; rfl
  | cons r rs ih =>
    intro st
    simp only [runRoots, List.map_cons]
    rw [ih, get_dests_fst]

/-- C9: with both options set, the goal's flattened output is exactly the
concatenation grouped by root in input order, within a root by
destination in input order, and within a pair in discovery order. -/
theorem paths_flattening_order (resolve : String → List Node) (provider : Node → AdjMap)
    (f t : String) :
    paths resolve provider (some f) (some t) =
      Except.ok ((((resolve f).map (fun r =>
        (((resolve t).map (fun d =>
          find_paths_breadth_first (provider r) r d)).flatten))).flatten), 0) := by
  simp only [paths, flattenSpecPaths]
  rw [runRoots_fst, List.map_map]
  rfl

/-- C10: the goal fails exactly when `--from` or `--to` is unset; the
failure is decided before the resolvers or the provider are consulted
(the result is then independent of both); and every successful completion
carries exit code 0. -/
theorem paths_error_handling (resolve resolve' : String → List Node)
    (provider provider' : Node → AdjMap) (path_from path_to : Option String) :
    ((∃ e, paths resolve provider path_from path_to = Except.error e) ↔
      path_from = none ∨ path_to = none)
    ∧ (path_from = none ∨ path_to = none →
        paths resolve provider path_from path_to =
          paths resolve' provider' path_from path_to)
    ∧ ∀ res, paths resolve provider path_from path_to = Except.ok res → res.2 = 0 := by
  cases path_from with
  | none =>
    refine ⟨⟨fun _ => Or.inl rfl, fun _ => ⟨"Must set --from", rfl⟩⟩, fun _ => rfl, ?_⟩
    intro res h
    simp [paths] at h
  | some f =>
    cases path_to with
    | none =>
      refine ⟨⟨fun _ => Or.inr rfl, fun _ => ⟨"Must set --to", rfl⟩⟩, fun _ => rfl, ?_⟩
      intro res h
      simp [paths] at h
    | some t =>
      refine ⟨⟨?_, ?_⟩, ?_, ?_⟩
      · intro he
        obtain ⟨e, he⟩ := he
        simp [paths] at he
      · intro h
        rcases h with h | h <;> simp at h
      · intro h
        rcases h with h | h <;> simp at h
      · intro res h
        simp only [paths, Except.ok.injEq] at h
        rw [← h]

/-- Witness for `paths_error_handling`: a missing `--from` gives the same
error whatever the resolver and provider are. -/
theorem paths_error_handling_witness :
    paths (fun _ => [5]) (fun _ => [(5, [6])]) none (some ("lib")) =
      paths (fun _ => []) (fun _ => []) none (some ("lib")) :=
  (paths_error_handling (fun _ => [5]) (fun _ => []) (fun _ => [(5, [6])]) (fun _ => [])
    none (some ("lib"))).2.1 (Or.inl rfl)

end FanOut

end PantsPaths
